import Mathlib

/-!
Verification of the VerbaVox audio-processing app (TypeScript sources) against
its natural-language specification.  Strings are modelled as `List Char`
(JavaScript strings are sequences of UTF-16 code units; all texts involved here
stay within the code-point range where the two views agree).  Each definition is
a direct translation of the corresponding function in the sources.
-/

namespace VerbaVox

/-- The regex class `\d` of JavaScript: the ASCII digits `0`–`9`. -/
def isDigitCh (c : Char) : Bool := '0' ≤ c && c ≤ '9'

/-- The JavaScript whitespace class used by `String.prototype.trim` and by the
regex class `\s`: tab, LF, VT, FF, CR, space, NBSP, and the Unicode space
separators, line/paragraph separators and BOM. -/
def isJsWs (c : Char) : Bool :=
  c = '\t' || c = '\n' || c = '\u000B' || c = '\u000C' || c = '\r' || c = ' ' ||
  c = '\u00A0' || c = '\u1680' || ('\u2000' ≤ c && c ≤ '\u200A') ||
  c = '\u2028' || c = '\u2029' || c = '\u202F' || c = '\u205F' || c = '\u3000' ||
  c = '\uFEFF'

/-- `line.trim()` of JavaScript: drop leading and trailing whitespace. -/
def jsTrim (l : List Char) : List Char :=
  ((l.dropWhile isJsWs).reverse.dropWhile isJsWs).reverse

/-- Prepend a character to the first piece of a split;
`splitCRLF` never produces `[]`, so the `[]` case is unreachable. -/
def consHead (c : Char) : List (List Char) → List (List Char)
  | [] => [[c]]
  | l :: ls => (c :: l) :: ls

/-- `srtText.split(/\r?\n/)` of the sources: split at every `\n`, where a `\r`
immediately preceding a `\n` is consumed by the separator; a `\r` not followed
by `\n` stays inside its line. -/
def splitCRLF : List Char → List (List Char)
  | [] => [[]]
  | c :: rest =>
    if c = '\n' then [] :: splitCRLF rest
    else if c = '\r' then
      match rest with
      | [] => [['\r']]
      | r2 :: rest2 =>
        if r2 = '\n' then [] :: splitCRLF rest2
        else consHead '\r' (splitCRLF (r2 :: rest2))
    else consHead c (splitCRLF rest)

/-- `textLines.join('\n')` of the sources. -/
def joinNL : List (List Char) → List Char
  | [] => []
  | [l] => l
  | l :: l2 :: ls => l ++ '\n' :: joinNL (l2 :: ls)

/-- `line.includes('-->')` tested at one position: does the list start with
the three characters of the arrow? -/
def arrowHead (t : List Char) : Bool := t.take 3 == ['-', '-', '>']

/-- `line.includes('-->')` of the sources: some suffix starts with the arrow. -/
def containsArrow (l : List Char) : Bool := l.tails.any arrowHead

/-- `/^\d+$/.test(line.trim())` of the sources: the trimmed line is a nonempty
run of digits. -/
def isCounter (l : List Char) : Bool :=
  !(jsTrim l).isEmpty && (jsTrim l).all isDigitCh

/-- The predicate of the `filter` inside `stripSrtTimecodes`:
`!isTimecode && !isCounter && line.trim() !== ''`. -/
def srtKeep (l : List Char) : Bool :=
  !containsArrow l && !isCounter l && !(jsTrim l).isEmpty

/-- `stripSrtTimecodes` of `FileProcessor.tsx` and `docxGenerator.ts`
(the two copies are textually identical). -/
def stripSrtTimecodes (s : List Char) : List Char :=
  if s.isEmpty then [] else joinNL ((splitCRLF s).filter srtKeep)

/-- Consume exactly `n` characters of the regex class `\d`, returning the rest
of the input, or `none` if the input does not start with `n` digits. -/
def takeDigits : Nat → List Char → Option (List Char)
  | 0, s => some s
  | _ + 1, [] => none
  | n + 1, c :: s => if isDigitCh c then takeDigits n s else none

/-- Consume one fixed character. -/
def expectCh (ch : Char) : List Char → Option (List Char)
  | [] => none
  | c :: s => if c = ch then some s else none

/-- Consume a match of `\d{2}:\d{2}:\d{2},\d{3}`, one half of the timecode
regex of `App.tsx`. -/
def timePart (s : List Char) : Option (List Char) :=
  (((((((takeDigits 2 s).bind (expectCh ':')).bind
    (takeDigits 2)).bind (expectCh ':')).bind
    (takeDigits 2)).bind (expectCh ',')).bind (takeDigits 3))

/-- A match of the full regex `\d{2}:\d{2}:\d{2},\d{3}\s*-->\s*\d{2}:\d{2}:\d{2},\d{3}`
starting at the head of the input.  `\s*` is greedy, and since the character
after it in the pattern is not whitespace, greedy matching without backtracking
is equivalent to the regex engine's behaviour. -/
def matchTC (s : List Char) : Bool :=
  match timePart s with
  | none => false
  | some s1 =>
    match s1.dropWhile isJsWs with
    | '-' :: '-' :: '>' :: s3 =>
      match timePart (s3.dropWhile isJsWs) with
      | some _ => true
      | none => false
    | _ => false

/-- `hasSrtTimecodes` of `App.tsx`: `/\d{2}:\d{2}:\d{2},\d{3}\s*-->\s*\d{2}:\d{2}:\d{2},\d{3}/.test(text)`,
an unanchored search, i.e. a match starting at some position of the text. -/
def hasSrtTimecodes (s : List Char) : Bool := s.tails.any matchTC

/-- `translateText` of `App.tsx` chooses the timecode-preserving prompt
exactly when `hasSrtTimecodes` holds of its input. -/
def translatePromptPreservesTimecodes (text : List Char) : Bool :=
  hasSrtTimecodes text

/-- Modelled from the spec's words for claim C4: a line "matches the
timecode-range pattern `HH:MM:SS,mmm --> HH:MM:SS,mmm`", read as the line
containing a match of that pattern. -/
def specLineIsTimecode (l : List Char) : Bool := l.tails.any matchTC

/-- Modelled from the spec's words for claim C4: a line is "purely numeric". -/
def specLineIsNumeric (l : List Char) : Bool := !l.isEmpty && l.all isDigitCh

/-- Modelled from the spec's words for claim C4: a line is "blank". -/
def specLineIsBlank (l : List Char) : Bool := (jsTrim l).isEmpty

/-- Modelled from the spec's words for claim C4: remove exactly the purely
numeric lines, the timecode-range lines, and the blank lines; join the
remaining lines, in order, with newlines. -/
def stripSpecLiteral (s : List Char) : List Char :=
  joinNL ((splitCRLF s).filter
    (fun l => !specLineIsNumeric l && !specLineIsTimecode l && !specLineIsBlank l))

/-- Independent formulation of `line.includes('-->')` by position index,
used to state the amended claim C4 without restating the source definition. -/
def hasArrowIdx (l : List Char) : Bool :=
  (List.range l.length).any (fun i => (l.drop i).take 3 == ['-', '-', '>'])

/-- The amended removal condition of claim C4: the line contains the arrow
`-->`, or its whitespace-trimmed content is a nonempty run of digits, or it is
blank (whitespace only). -/
def removedAmended (l : List Char) : Prop :=
  hasArrowIdx l = true ∨
  (jsTrim l ≠ [] ∧ ∀ c ∈ jsTrim l, isDigitCh c = true) ∨
  jsTrim l = []

instance (l : List Char) : Decidable (removedAmended l) := by
  unfold removedAmended; infer_instance

/-- The filter as the amended claim C4 describes it: drop exactly the lines
satisfying `removedAmended`, keep the rest in order, newline-joined (with no
special case for empty input). -/
def stripAmendedSpec (s : List Char) : List Char :=
  joinNL ((splitCRLF s).filter (fun l => !decide (removedAmended l)))

/-! ## The per-file processing state machine (`FileProcessor.tsx`, `types.ts`) -/

/-- `TranscriptionStatus` of `types.ts`: a string enum. -/
inductive Status where
  | PENDING
  | TRANSCRIBING
  | TRANSLATED
  | SUMMARIZED
  | COMPLETED
  | ERROR
deriving DecidableEq

/-- The underlying string value of each `TranscriptionStatus` member. -/
def statusStr : Status → List Char
  | .PENDING => "PENDING".toList
  | .TRANSCRIBING => "TRANSCRIBING".toList
  | .TRANSLATED => "TRANSLATED".toList
  | .SUMMARIZED => "SUMMARIZED".toList
  | .COMPLETED => "COMPLETED".toList
  | .ERROR => "ERROR".toList

/-- JavaScript `a < b` on two strings: lexicographic comparison by code unit. -/
def jsStrLt : List Char → List Char → Bool
  | [], [] => false
  | [], _ :: _ => true
  | _ :: _, [] => false
  | a :: as, b :: bs =>
    if a.val < b.val then true
    else if b.val < a.val then false
    else jsStrLt as bs

/-- JavaScript `a >= b` on two strings: the negation of `a < b`. -/
def jsStrGe (a b : List Char) : Bool := !jsStrLt a b

/-- The guard expression `status >= TranscriptionStatus.COMPLETED` of
`FileProcessor.tsx`, evaluated over the enum's underlying string values. -/
def statusGeCompleted (st : Status) : Bool :=
  jsStrGe (statusStr st) (statusStr .COMPLETED)

/-- `ScriptQuote` of `types.ts`. -/
structure ScriptQuote where
  speaker : List Char
  quote : List Char
deriving DecidableEq

/-- The per-file component state of `FileProcessor.tsx`: `status`,
`transcript`, `translation`, `script` and `error` (the UI-only flags
`isTranslating`, `isGenerating`, `copied` are omitted). -/
structure Job where
  status : Status
  transcript : Option (List Char)
  translation : Option (List Char)
  script : Option (List ScriptQuote)
  error : Option (List Char)
deriving DecidableEq

/-- The initial component state: `PENDING`, everything else `null`. -/
def initJob : Job := ⟨.PENDING, none, none, none, none⟩

/-- `handleTranslate` of `FileProcessor.tsx`.  The guard `if (!transcript)
return` is a JavaScript truthiness test: it fires when the transcript is null
and also when it is the empty string.  The remote call
`translateText(transcript, targetLanguage.name)` is modelled by its outcome
`res`; the second component records the arguments of the issued request
(`none` when the early return fires).  On success the handler stores the
result in `translation` and sets status `TRANSLATED`; on failure it stores
the thrown message in `error` (after the initial `setError(null)`), touching
nothing else. -/
def handleTranslate (j : Job) (lang : List Char)
    (res : Except (List Char) (List Char)) :
    Job × Option (List Char × List Char) :=
  match j.transcript with
  | none => (j, none)
  | some t =>
    if t.isEmpty then (j, none)
    else
      match res with
      | .ok r =>
        ({ j with error := none, translation := some r, status := .TRANSLATED },
          some (t, lang))
      | .error m => ({ j with error := some m }, some (t, lang))

/-- `handleGenerateScript` of `FileProcessor.tsx`.  The guard
`if (!translation) return` is a truthiness test, firing on null and on the
empty string.  The remote call `generateScript(textForScript || "")` is
modelled by its outcome `res`; the second component records the text of the
issued request (`none` when the early return fires; `textForScript || ""`
equals `textForScript`, since the empty string is its own fallback).  When
`addTimecodes` holds, the translation is passed through `stripSrtTimecodes`
first. -/
def handleGenerateScript (j : Job) (addTimecodes : Bool)
    (res : Except (List Char) (List ScriptQuote)) :
    Job × Option (List Char) :=
  match j.translation with
  | none => (j, none)
  | some tr =>
    if tr.isEmpty then (j, none)
    else
      let textForScript := if addTimecodes then stripSrtTimecodes tr else tr
      match res with
      | .ok q =>
        ({ j with error := none, script := some q, status := .SUMMARIZED },
          some textForScript)
      | .error m => ({ j with error := some m }, some textForScript)

/-- The events that drive one job: the automatic transcription kick-off and
outcome, and the user-triggered translate and generate-script actions with
their remote outcomes. -/
inductive Ev where
  | startTranscribe
  | transcribeOk (t : List Char)
  | transcribeFail (msg : List Char)
  | translateAct (lang : List Char) (res : Except (List Char) (List Char))
  | generateAct (res : Except (List Char) (List ScriptQuote))

/-- One step of the per-file machine.  `processTranscription` sets
`TRANSCRIBING` on mount and on completion stores the transcript with
`COMPLETED`, or the message with `ERROR`; the two handlers are as above. -/
def step (addTimecodes : Bool) (j : Job) : Ev → Job
  | .startTranscribe =>
    if j.status = .PENDING then { j with status := .TRANSCRIBING } else j
  | .transcribeOk t =>
    if j.status = .TRANSCRIBING then
      { j with transcript := some t, status := .COMPLETED }
    else j
  | .transcribeFail m =>
    if j.status = .TRANSCRIBING then
      { j with error := some m, status := .ERROR }
    else j
  | .translateAct lang res => (handleTranslate j lang res).1
  | .generateAct res => (handleGenerateScript j addTimecodes res).1

/-- The job state after a sequence of events, starting from the initial
component state. -/
def run (addTimecodes : Bool) (evs : List Ev) : Job :=
  evs.foldl (step addTimecodes) initJob

/-- A job state is reachable when some event sequence produces it. -/
def Reachable (j : Job) : Prop := ∃ b evs, run b evs = j

/-- Modelled from the spec: "transcription has finished" for a job — its
status is past `Pending` and `Transcribing`. -/
def transcriptionFinished (j : Job) : Prop :=
  j.status ≠ .PENDING ∧ j.status ≠ .TRANSCRIBING

instance (j : Job) : Decidable (transcriptionFinished j) := by
  unfold transcriptionFinished; infer_instance

/-! ## File selection (`App.tsx`) -/

/-- The (name, size, last-modified) data of a selected file — the fields that
`handleFilesSelected` compares. -/
structure FileMeta where
  name : List Char
  size : Nat
  lastModified : Int
deriving DecidableEq

/-- `handleFilesSelected` of `App.tsx`: keep the already-queued files and
append those selected files whose (name, size, lastModified) triple matches no
already-queued file. -/
def handleFilesSelected (files selected : List FileMeta) : List FileMeta :=
  files ++ selected.filter (fun sf =>
    !(files.any (fun ef =>
      ef.name == sf.name && ef.size == sf.size && ef.lastModified == sf.lastModified)))

/-! ## Document export (`docxGenerator.ts`) -/

/-- `name.split('.')` of JavaScript: split at every dot. -/
def splitDot : List Char → List (List Char)
  | [] => [[]]
  | c :: rest => if c = '.' then [] :: splitDot rest else consHead c (splitDot rest)

/-- `parts.join('.')` of JavaScript. -/
def joinDot : List (List Char) → List Char
  | [] => []
  | [l] => l
  | l :: l2 :: ls => l ++ '.' :: joinDot (l2 :: ls)

/-- The fixed suffix appended by `formatFileName`. -/
def processedSuffix : List Char := "_processed.docx".toList

/-- `formatFileName` of `docxGenerator.ts`: split the name at dots, drop the
last part (`parts.pop()` — the split of a string is never empty), re-join with
dots, and append `_processed.docx`. -/
def formatFileName (name : List Char) : List Char :=
  joinDot (splitDot name).dropLast ++ processedSuffix

/-- One step of the `quotes.reduce` of `docxGenerator.ts` (and the identical
reduce in `FileProcessor.tsx`): `(acc[q.speaker] = acc[q.speaker] || []).push(q)`.
A JavaScript object with string-valued speaker keys is an association list; a
fresh key is created at the end, an existing key's array is extended in place. -/
def recPush (r : List (List Char × List ScriptQuote)) (q : ScriptQuote) :
    List (List Char × List ScriptQuote) :=
  if r.any (fun p => p.1 == q.speaker) then
    r.map (fun p => if p.1 == q.speaker then (p.1, p.2 ++ [q]) else p)
  else r ++ [(q.speaker, [q])]

/-- `quotesBySpeaker` of `docxGenerator.ts`/`FileProcessor.tsx`. -/
def quotesBySpeaker (qs : List ScriptQuote) :
    List (List Char × List ScriptQuote) :=
  qs.foldl recPush []

/-- Whether a string is a canonical array-index key of a JavaScript object:
a digit run with no superfluous leading zero whose value is below 2^32 − 1.
`Object.entries` lists such keys first, in ascending numeric order, before the
remaining string keys in insertion order (ECMAScript ordinary own property key
order). -/
def isArrayIndexKey (s : List Char) : Bool :=
  !s.isEmpty && s.all isDigitCh && (s == ['0'] || !(s.head? == some '0')) &&
    s.foldl (fun n c => n * 10 + (c.toNat - 48)) 0 < 4294967295

/-- The numeric value of a digit-run key. -/
def keyVal (s : List Char) : Nat := s.foldl (fun n c => n * 10 + (c.toNat - 48)) 0

/-- Insert an entry into a list that is sorted by ascending numeric key value. -/
def insertAsc (p : List Char × List ScriptQuote) :
    List (List Char × List ScriptQuote) → List (List Char × List ScriptQuote)
  | [] => [p]
  | x :: xs => if keyVal p.1 ≤ keyVal x.1 then p :: x :: xs else x :: insertAsc p xs

/-- `Object.entries` of a JavaScript object with string keys: the array-index
keys first in ascending numeric order, then the other keys in insertion
order. -/
def jsEntries (r : List (List Char × List ScriptQuote)) :
    List (List Char × List ScriptQuote) :=
  (r.filter (fun p => isArrayIndexKey p.1)).foldr insertAsc [] ++
    r.filter (fun p => !isArrayIndexKey p.1)

/-- The first-appearance order of the speakers of a quote list, as claim C7
describes the expected group order. -/
def firstSpeakers (qs : List ScriptQuote) : List (List Char) :=
  qs.foldl (fun acc q => if acc.any (· == q.speaker) then acc else acc ++ [q.speaker]) []

/-! ## Claims C1–C3: the translate and generate-script actions -/

/-- Claim C1: for a job in the `Completed` state with transcript `T`, the
translate action calls the translation operation with exactly `T` and the
selected language `L`, and on success stores the result as the translation,
moves the status to `Translated`, and leaves the transcript unchanged. -/
theorem C1_translate_success (j : Job) (t lang r : List Char)
    (hst : j.status = .COMPLETED) (htr : j.transcript = some t)
    (hne : t ≠ []) :
    (handleTranslate j lang (.ok r)).2 = some (t, lang) ∧
    (handleTranslate j lang (.ok r)).1.translation = some r ∧
    (handleTranslate j lang (.ok r)).1.status = .TRANSLATED ∧
    (handleTranslate j lang (.ok r)).1.transcript = j.transcript := by
  simp [handleTranslate, htr, hne]

/-- Witness for C1 at a concrete job. -/
theorem C1_translate_success_witness :
    (handleTranslate ⟨.COMPLETED, some "T".toList, none, none, none⟩
        "Spanish".toList (.ok "R".toList)).2
      = some ("T".toList, "Spanish".toList) ∧
    (handleTranslate ⟨.COMPLETED, some "T".toList, none, none, none⟩
        "Spanish".toList (.ok "R".toList)).1.translation = some "R".toList ∧
    (handleTranslate ⟨.COMPLETED, some "T".toList, none, none, none⟩
        "Spanish".toList (.ok "R".toList)).1.status = .TRANSLATED ∧
    (handleTranslate ⟨.COMPLETED, some "T".toList, none, none, none⟩
        "Spanish".toList (.ok "R".toList)).1.transcript
      = Job.transcript ⟨.COMPLETED, some "T".toList, none, none, none⟩ :=
  C1_translate_success _ _ _ _ rfl rfl (by decide)

/-- Claim C2: when the translate action's remote call fails, the job's
transcript and its status from immediately before the action are unchanged,
and `error` is set to a non-null message. -/
theorem C2_translate_failure (j : Job) (t lang m : List Char)
    (htr : j.transcript = some t) (hne : t ≠ []) :
    (handleTranslate j lang (.error m)).1.transcript = j.transcript ∧
    (handleTranslate j lang (.error m)).1.status = j.status ∧
    (handleTranslate j lang (.error m)).1.error = some m ∧
    (handleTranslate j lang (.error m)).1.error ≠ none := by
  simp [handleTranslate, htr, hne]

/-- Witness for C2 at a concrete job. -/
theorem C2_translate_failure_witness :
    (handleTranslate ⟨.COMPLETED, some "T".toList, none, none, none⟩
        "Spanish".toList (.error "Failed to translate text.".toList)).1.transcript
      = Job.transcript ⟨.COMPLETED, some "T".toList, none, none, none⟩ ∧
    (handleTranslate ⟨.COMPLETED, some "T".toList, none, none, none⟩
        "Spanish".toList (.error "Failed to translate text.".toList)).1.status
      = Job.status ⟨.COMPLETED, some "T".toList, none, none, none⟩ ∧
    (handleTranslate ⟨.COMPLETED, some "T".toList, none, none, none⟩
        "Spanish".toList (.error "Failed to translate text.".toList)).1.error
      = some "Failed to translate text.".toList ∧
    (handleTranslate ⟨.COMPLETED, some "T".toList, none, none, none⟩
        "Spanish".toList (.error "Failed to translate text.".toList)).1.error
      ≠ none :=
  C2_translate_failure _ _ _ _ rfl (by decide)

/-- Claim C3: for a job in the `Translated` state with the timecode option
enabled, the quote-extraction action passes the SRT-filtered translation to
the extraction operation. -/
theorem C3_generate_uses_filtered (j : Job) (tr : List Char)
    (res : Except (List Char) (List ScriptQuote))
    (hst : j.status = .TRANSLATED) (htr : j.translation = some tr)
    (hne : tr ≠ []) :
    (handleGenerateScript j true res).2 = some (stripSrtTimecodes tr) := by
  cases res <;> simp [handleGenerateScript, htr, hne]

/-- Witness for C3 at a concrete job whose translation carries timecodes. -/
theorem C3_generate_uses_filtered_witness :
    (handleGenerateScript
        ⟨.TRANSLATED, some "t".toList,
          some "1\n00:00:01,234 --> 00:00:05,678\nhola\n".toList, none, none⟩
        true (.ok [])).2
      = some (stripSrtTimecodes "1\n00:00:01,234 --> 00:00:05,678\nhola\n".toList) :=
  C3_generate_uses_filtered _ _ _ rfl rfl (by decide)

/-! ## Claim C10: the `status >= COMPLETED` comparison -/

/-- Claim C10 (amended): over the string enum's underlying values the
comparison `status >= TranscriptionStatus.COMPLETED` is true for every status
value — in particular it holds whenever the job has a transcript and
transcription has finished, but also in `PENDING` and `TRANSCRIBING`, so it
is the conjoined `transcript` non-null check in the code's guards that
enforces the claimed condition. -/
theorem C10_status_ge_always : ∀ st : Status, statusGeCompleted st = true := by
  intro st
  cases st <;> decide

/-- Counterexample to claim C10 as stated: the initial job state is reachable,
the comparison evaluates to true there (lexicographically
`'PENDING' >= 'COMPLETED'`), yet the job has no transcript and transcription
has not finished. -/
theorem C10_counterexample :
    Reachable initJob ∧
    ¬(statusGeCompleted initJob.status = true ↔
      (initJob.transcript ≠ none ∧ transcriptionFinished initJob)) :=
  ⟨⟨true, [], rfl⟩, by decide⟩

/-! ## Claim C8: the export filename -/

theorem consHead_ne_nil (c : Char) (L : List (List Char)) : consHead c L ≠ [] := by
  cases L <;> simp [consHead]

theorem splitDot_ne_nil (s : List Char) : splitDot s ≠ [] := by
  induction s with
  | nil => simp [splitDot]
  | cons c rest ih =>
    by_cases h : c = '.'
    · simp [splitDot, h]
    · simpa [splitDot, h] using consHead_ne_nil c (splitDot rest)

theorem splitDot_no_dot (s : List Char) (h : '.' ∉ s) : splitDot s = [s] := by
  induction s with
  | nil => rfl
  | cons c rest ih =>
    have hc : c ≠ '.' := fun hc => h (hc ▸ List.mem_cons_self c rest)
    have hrest : '.' ∉ rest := fun hm => h (List.mem_cons_of_mem c hm)
    simp [splitDot, hc, ih hrest, consHead]

theorem consHead_append_last (c : Char) (L : List (List Char)) (p : List Char)
    (h : L ≠ []) : consHead c (L ++ [p]) = consHead c L ++ [p] := by
  cases L with
  | nil => exact absurd rfl h
  | cons l ls => simp [consHead]

theorem splitDot_append_dot (x post : List Char) (h : '.' ∉ post) :
    splitDot (x ++ '.' :: post) = splitDot x ++ [post] := by
  induction x with
  | nil => simp [splitDot, splitDot_no_dot post h]
  | cons c rest ih =>
    by_cases hc : c = '.'
    · simp [splitDot, hc, ih]
    · have : splitDot ((c :: rest) ++ '.' :: post)
          = consHead c (splitDot (rest ++ '.' :: post)) := by
        simp [splitDot, hc]
      rw [this, ih, consHead_append_last c _ _ (splitDot_ne_nil rest)]
      simp [splitDot, hc]

theorem joinDot_cons_cons (c : Char) (l : List Char) (ls : List (List Char)) :
    joinDot ((c :: l) :: ls) = c :: joinDot (l :: ls) := by
  cases ls <;> simp [joinDot]

theorem joinDot_splitDot (s : List Char) : joinDot (splitDot s) = s := by
  induction s with
  | nil => rfl
  | cons c rest ih =>
    obtain ⟨l, ls, hl⟩ := List.exists_cons_of_ne_nil (splitDot_ne_nil rest)
    by_cases hc : c = '.'
    · subst hc
      have h1 : splitDot ('.' :: rest) = [] :: splitDot rest := by simp [splitDot]
      have h2 : joinDot ([] :: l :: ls) = '.' :: joinDot (l :: ls) := by
        simp [joinDot]
      rw [h1, hl, h2, ← hl, ih]
    · have h1 : splitDot (c :: rest) = consHead c (splitDot rest) := by
        simp [splitDot, hc]
      rw [h1, hl]
      show joinDot ((c :: l) :: ls) = c :: rest
      rw [joinDot_cons_cons, ← hl, ih]

/-- Claim C8 (amended): for a source filename with an extension — any name of
the form `stem ++ "." ++ ext` with a dot-free `ext` — the export filename is
the stem followed by `_processed.docx`; for a dot-free source filename the
whole name is dropped and the export filename is just `_processed.docx`. -/
theorem C8_filename (x post name : List Char) (h : '.' ∉ post)
    (hn : '.' ∉ name) :
    formatFileName (x ++ '.' :: post) = x ++ processedSuffix ∧
    formatFileName name = processedSuffix := by
  constructor
  · unfold formatFileName
    rw [splitDot_append_dot x post h, List.dropLast_concat, joinDot_splitDot]
  · unfold formatFileName
    rw [splitDot_no_dot name hn]
    rfl

/-- Witness for C8 at the spec's example `interview.mp3`. -/
theorem C8_filename_witness :
    formatFileName ("interview".toList ++ '.' :: "mp3".toList)
      = "interview".toList ++ processedSuffix ∧
    formatFileName "audio".toList = processedSuffix :=
  C8_filename "interview".toList "mp3".toList "audio".toList
    (by decide) (by decide)

/-- Counterexample to claim C8 as stated: for the dot-free source filename
`audio` the export filename is bare `_processed.docx` — the base name is not
preserved, so the output is not the source filename with its extension
replaced. -/
theorem C8_counterexample :
    formatFileName "audio".toList = "_processed.docx".toList ∧
    formatFileName "audio".toList ≠ "audio".toList ++ "_processed.docx".toList := by
  constructor <;> decide

/-! ## Claim C9: duplicate file selection -/

theorem handleFilesSelected_nodup (files sel : List FileMeta)
    (h1 : files.Nodup) (h2 : sel.Nodup) :
    (handleFilesSelected files sel).Nodup := by
  unfold handleFilesSelected
  rw [List.nodup_append]
  refine ⟨h1, h2.filter _, ?_⟩
  intro a ha hafil
  have hpred := List.of_mem_filter hafil
  rw [Bool.not_eq_true', List.any_eq_false] at hpred
  exact absurd (by simp) (hpred a ha)

/-- Claim C9 (amended): across any sequence of selections each of which is
internally free of duplicate (name, size, last-modified) triples, the queue
never holds two jobs with the same triple; two files with an equal triple
inside one and the same selection, however, are both queued (see the
counterexample). -/
theorem C9_no_duplicate_jobs (sels : List (List FileMeta))
    (h : ∀ sel ∈ sels, sel.Nodup) :
    (sels.foldl handleFilesSelected []).Nodup := by
  suffices H : ∀ (ss : List (List FileMeta)) (acc : List FileMeta),
      acc.Nodup → (∀ sel ∈ ss, sel.Nodup) → (ss.foldl handleFilesSelected acc).Nodup by
    exact H sels [] List.nodup_nil h
  intro ss
  induction ss with
  | nil => intro acc h1 _; exact h1
  | cons sel rest ih =>
    intro acc h1 h2
    exact ih (handleFilesSelected acc sel)
      (handleFilesSelected_nodup acc sel h1 (h2 sel (List.mem_cons_self sel rest)))
      (fun s hs => h2 s (List.mem_cons_of_mem sel hs))

/-- Witness for C9: the same file selected twice in two separate selections is
queued only once. -/
theorem C9_no_duplicate_jobs_witness :
    ([[(⟨"a".toList, 1, 0⟩ : FileMeta)], [⟨"a".toList, 1, 0⟩]].foldl
      handleFilesSelected []).Nodup :=
  C9_no_duplicate_jobs _ (by decide)

/-- Counterexample to claim C9 as stated: a single selection containing two
files with the same (name, size, last-modified) triple queues both — the
dedupe filter only compares against the already-queued files, not within the
selection. -/
theorem C9_counterexample :
    [[(⟨"a".toList, 1, 0⟩ : FileMeta), ⟨"a".toList, 1, 0⟩]].foldl
        handleFilesSelected []
      = [⟨"a".toList, 1, 0⟩, ⟨"a".toList, 1, 0⟩] ∧
    ¬ ([[(⟨"a".toList, 1, 0⟩ : FileMeta), ⟨"a".toList, 1, 0⟩]].foldl
        handleFilesSelected []).Nodup := by
  constructor <;> decide

/-! ## The line structure of `split(/\r?\n/)` -/

theorem consHead_cons (c : Char) (hd : List Char) (tl : List (List Char)) :
    consHead c (hd :: tl) = (c :: hd) :: tl := rfl

theorem splitCRLF_cons_nl (s : List Char) :
    splitCRLF ('\n' :: s) = [] :: splitCRLF s := by
  conv_lhs => rw [splitCRLF.eq_def]
  rfl

theorem splitCRLF_crlf (s : List Char) :
    splitCRLF ('\r' :: '\n' :: s) = [] :: splitCRLF s := by
  conv_lhs => rw [splitCRLF.eq_def]
  rfl

theorem splitCRLF_cr_cons (r2 : Char) (s : List Char) (h : r2 ≠ '\n') :
    splitCRLF ('\r' :: r2 :: s) = consHead '\r' (splitCRLF (r2 :: s)) := by
  conv_lhs => rw [splitCRLF.eq_def]
  simp [h]

theorem splitCRLF_cons_other (c : Char) (s : List Char) (h1 : c ≠ '\n')
    (h2 : c ≠ '\r') : splitCRLF (c :: s) = consHead c (splitCRLF s) := by
  conv_lhs => rw [splitCRLF.eq_def]
  simp [h1, h2]

theorem splitCRLF_ne_nil (s : List Char) : splitCRLF s ≠ [] := by
  induction s using splitCRLF.induct with
  | case1 => decide
  | case2 rest ih => rw [splitCRLF_cons_nl]; simp
  | case3 _ => decide
  | case4 rest _ ih => rw [splitCRLF_crlf]; simp
  | case5 r2 rest2 h2 _ ih =>
    rw [splitCRLF_cr_cons r2 rest2 h2]; exact consHead_ne_nil _ _
  | case6 c rest h1 h2 ih =>
    rw [splitCRLF_cons_other c rest h1 h2]; exact consHead_ne_nil _ _

theorem mem_splitCRLF_no_nl (s : List Char) :
    ∀ l ∈ splitCRLF s, '\n' ∉ l := by
  induction s using splitCRLF.induct with
  | case1 => intro l hl; rw [splitCRLF] at hl; simp at hl; simp [hl]
  | case2 rest ih =>
    intro l hl
    rw [splitCRLF_cons_nl] at hl
    rcases List.mem_cons.mp hl with h | h
    · simp [h]
    · exact ih l h
  | case3 _ => decide
  | case4 rest _ ih =>
    intro l hl
    rw [splitCRLF_crlf] at hl
    rcases List.mem_cons.mp hl with h | h
    · simp [h]
    · exact ih l h
  | case5 r2 rest2 h2 _ ih =>
    intro l hl
    obtain ⟨hd, tl, hst⟩ := List.exists_cons_of_ne_nil (splitCRLF_ne_nil (r2 :: rest2))
    rw [splitCRLF_cr_cons r2 rest2 h2, hst, consHead_cons] at hl
    rcases List.mem_cons.mp hl with h | h
    · subst h
      intro hmem
      rcases List.mem_cons.mp hmem with h | h
      · exact absurd h.symm (by decide)
      · exact ih hd (hst ▸ List.mem_cons_self hd tl) h
    · exact ih l (hst ▸ List.mem_cons_of_mem hd h)
  | case6 c rest h1 h2 ih =>
    intro l hl
    obtain ⟨hd, tl, hst⟩ := List.exists_cons_of_ne_nil (splitCRLF_ne_nil rest)
    rw [splitCRLF_cons_other c rest h1 h2, hst, consHead_cons] at hl
    rcases List.mem_cons.mp hl with h | h
    · subst h
      intro hmem
      rcases List.mem_cons.mp hmem with h | h
      · exact h1 h.symm
      · exact ih hd (hst ▸ List.mem_cons_self hd tl) h
    · exact ih l (hst ▸ List.mem_cons_of_mem hd h)

theorem mem_splitCRLF_sub (s : List Char) :
    ∀ l ∈ splitCRLF s, ∀ c ∈ l, c ∈ s := by
  induction s using splitCRLF.induct with
  | case1 => intro l hl; rw [splitCRLF] at hl; simp at hl; simp [hl]
  | case2 rest ih =>
    intro l hl c hc
    rw [splitCRLF_cons_nl] at hl
    rcases List.mem_cons.mp hl with h | h
    · simp [h] at hc
    · exact List.mem_cons_of_mem _ (ih l h c hc)
  | case3 _ => decide
  | case4 rest _ ih =>
    intro l hl c hc
    rw [splitCRLF_crlf] at hl
    rcases List.mem_cons.mp hl with h | h
    · simp [h] at hc
    · exact List.mem_cons_of_mem _ (List.mem_cons_of_mem _ (ih l h c hc))
  | case5 r2 rest2 h2 _ ih =>
    intro l hl c hc
    obtain ⟨hd, tl, hst⟩ := List.exists_cons_of_ne_nil (splitCRLF_ne_nil (r2 :: rest2))
    rw [splitCRLF_cr_cons r2 rest2 h2, hst, consHead_cons] at hl
    rcases List.mem_cons.mp hl with h | h
    · subst h
      rcases List.mem_cons.mp hc with h | h
      · simp [h]
      · exact List.mem_cons_of_mem _
          (ih hd (hst ▸ List.mem_cons_self hd tl) c h)
    · exact List.mem_cons_of_mem _ (ih l (hst ▸ List.mem_cons_of_mem hd h) c hc)
  | case6 c0 rest h1 h2 ih =>
    intro l hl c hc
    obtain ⟨hd, tl, hst⟩ := List.exists_cons_of_ne_nil (splitCRLF_ne_nil rest)
    rw [splitCRLF_cons_other c0 rest h1 h2, hst, consHead_cons] at hl
    rcases List.mem_cons.mp hl with h | h
    · subst h
      rcases List.mem_cons.mp hc with h | h
      · simp [h]
      · exact List.mem_cons_of_mem _
          (ih hd (hst ▸ List.mem_cons_self hd tl) c h)
    · exact List.mem_cons_of_mem _ (ih l (hst ▸ List.mem_cons_of_mem hd h) c hc)

theorem splitCRLF_single (l : List Char) (hn : '\n' ∉ l) (hr : '\r' ∉ l) :
    splitCRLF l = [l] := by
  induction l with
  | nil => rfl
  | cons c rest ih =>
    have h1 : c ≠ '\n' := fun h => hn (h ▸ List.mem_cons_self c rest)
    have h2 : c ≠ '\r' := fun h => hr (h ▸ List.mem_cons_self c rest)
    rw [splitCRLF_cons_other c rest h1 h2,
      ih (fun h => hn (List.mem_cons_of_mem c h))
        (fun h => hr (List.mem_cons_of_mem c h)), consHead_cons]

theorem splitCRLF_append_nl (l rest : List Char) (hn : '\n' ∉ l)
    (hr : '\r' ∉ l) : splitCRLF (l ++ '\n' :: rest) = l :: splitCRLF rest := by
  induction l with
  | nil => simpa using splitCRLF_cons_nl rest
  | cons c l0 ih =>
    have h1 : c ≠ '\n' := fun h => hn (h ▸ List.mem_cons_self c l0)
    have h2 : c ≠ '\r' := fun h => hr (h ▸ List.mem_cons_self c l0)
    rw [List.cons_append, splitCRLF_cons_other c _ h1 h2,
      ih (fun h => hn (List.mem_cons_of_mem c h))
        (fun h => hr (List.mem_cons_of_mem c h)), consHead_cons]

theorem splitCRLF_joinNL (K : List (List Char)) (hne : K ≠ [])
    (hK : ∀ l ∈ K, '\n' ∉ l ∧ '\r' ∉ l) : splitCRLF (joinNL K) = K := by
  induction K with
  | nil => exact absurd rfl hne
  | cons k ks ih =>
    cases ks with
    | nil =>
      have := hK k (List.mem_cons_self k [])
      simpa [joinNL] using splitCRLF_single k this.1 this.2
    | cons k2 ks2 =>
      have hk := hK k (List.mem_cons_self k _)
      have : joinNL (k :: k2 :: ks2) = k ++ '\n' :: joinNL (k2 :: ks2) := rfl
      rw [this, splitCRLF_append_nl k _ hk.1 hk.2,
        ih (by simp) (fun l hl => hK l (List.mem_cons_of_mem k hl))]

/-! ## Claim C5: idempotence of the SRT filter -/

theorem joinNL_ne_nil (k : List Char) (ks : List (List Char)) (h : k ≠ []) :
    joinNL (k :: ks) ≠ [] := by
  cases ks <;> simp [joinNL, h]

theorem srtKeep_ne_nil (l : List Char) (h : srtKeep l = true) : l ≠ [] := by
  intro hl
  subst hl
  exact absurd h (by decide)

/-- Claim C5 (amended): the SRT filter is idempotent on every input that
contains no carriage-return character (in particular on every LF-separated
text); a lone `\r` kept inside a line can merge with the `\n` introduced by
the rejoin, so full idempotence fails (see the counterexample). -/
theorem C5_idempotent_noCR (s : List Char) (h : '\r' ∉ s) :
    stripSrtTimecodes (stripSrtTimecodes s) = stripSrtTimecodes s := by
  by_cases hs : s.isEmpty
  · rw [List.isEmpty_iff.mp hs]; rfl
  · have hstrip : stripSrtTimecodes s = joinNL ((splitCRLF s).filter srtKeep) := by
      rw [stripSrtTimecodes, if_neg (by simp [hs])]
    cases hK : (splitCRLF s).filter srtKeep with
    | nil => rw [hstrip, hK]; rfl
    | cons k ks =>
      have hkeep : ∀ l ∈ (splitCRLF s).filter srtKeep, srtKeep l = true :=
        fun l hl => List.of_mem_filter hl
      have hlines : ∀ l ∈ (splitCRLF s).filter srtKeep, '\n' ∉ l ∧ '\r' ∉ l := by
        intro l hl
        have hmem := List.mem_of_mem_filter hl
        constructor
        · exact mem_splitCRLF_no_nl s l hmem
        · exact fun hc => h (mem_splitCRLF_sub s l hmem '\r' hc)
      have hkmem : k ∈ (splitCRLF s).filter srtKeep := by
        rw [hK]; exact List.mem_cons_self k ks
      have hknil : k ≠ [] := srtKeep_ne_nil k (hkeep k hkmem)
      rw [hstrip, hK]
      rw [stripSrtTimecodes, if_neg (by simp [joinNL_ne_nil k ks hknil])]
      rw [← hK, splitCRLF_joinNL _ (by rw [hK]; simp) hlines,
        List.filter_eq_self.mpr hkeep]

/-- Witness for C5 at a concrete CR-free input. -/
theorem C5_idempotent_noCR_witness :
    stripSrtTimecodes (stripSrtTimecodes "1\nab\n\ncd".toList)
      = stripSrtTimecodes "1\nab\n\ncd".toList :=
  C5_idempotent_noCR "1\nab\n\ncd".toList (by decide)

/-- Counterexample to claim C5 as stated: on `"ab\r\r\nCD"` one application
yields `"ab\r\nCD"` (the lone `\r` stays inside its line), and the second
application removes the now re-formed `\r\n`, yielding `"ab\nCD"`. -/
theorem C5_counterexample :
    stripSrtTimecodes (stripSrtTimecodes "ab\r\r\nCD".toList)
      ≠ stripSrtTimecodes "ab\r\r\nCD".toList := by
  decide

/-! ## Claim C4: which lines the SRT filter removes -/

theorem containsArrow_cons (c : Char) (l : List Char) :
    containsArrow (c :: l) = (arrowHead (c :: l) || containsArrow l) := by
  rw [containsArrow, containsArrow, List.tails_cons, List.any_cons]

theorem hasArrowIdx_cons (c : Char) (l : List Char) :
    hasArrowIdx (c :: l) = (arrowHead (c :: l) || hasArrowIdx l) := by
  rw [hasArrowIdx, hasArrowIdx, List.length_cons, List.range_succ_eq_map,
    List.any_cons, List.any_map]
  rw [arrowHead, List.drop_zero]
  congr 1

theorem containsArrow_eq_hasArrowIdx (l : List Char) :
    containsArrow l = hasArrowIdx l := by
  induction l with
  | nil => decide
  | cons c l ih => rw [containsArrow_cons, hasArrowIdx_cons, ih]

theorem srtKeep_eq_not_removedAmended (l : List Char) :
    srtKeep l = !decide (removedAmended l) := by
  by_cases h : removedAmended l
  · rw [decide_eq_true h, Bool.not_true]
    rcases h with h | ⟨h1, h2⟩ | h
    · rw [srtKeep, ← containsArrow_eq_hasArrowIdx] at *
      simp [h]
    · have : isCounter l = true := by
        rw [isCounter, Bool.and_eq_true]
        constructor
        · simpa using h1
        · rw [List.all_eq_true]; exact h2
      simp [srtKeep, this]
    · simp [srtKeep, h]
  · rw [decide_eq_false h, Bool.not_false]
    rw [removedAmended, not_or, not_or] at h
    obtain ⟨ha, hn, hb⟩ := h
    rw [← containsArrow_eq_hasArrowIdx, Bool.not_eq_true] at ha
    rw [srtKeep, ha]
    have hbne : jsTrim l ≠ [] := hb
    have hcnt : isCounter l = false := by
      rw [isCounter]
      rcases not_and_or.mp hn with h | h
      · exact absurd hbne (by simpa using h)
      · push_neg at h
        obtain ⟨c, hc, hcd⟩ := h
        have : (jsTrim l).all isDigitCh = false := by
          rw [← Bool.not_eq_true, List.all_eq_true]
          intro hall
          exact hcd (hall c hc)
        simp [this]
    simp [hcnt, hbne]

/-- Claim C4 (amended): for every input the filter removes exactly the lines
containing the substring `-->`, the lines whose whitespace-trimmed content is
a nonempty digit run, and the blank (whitespace-only) lines; the remaining
lines are preserved in their original order and newline-joined, and empty
input yields empty output.  (The code removes every line containing `-->`,
not only lines matching the full `HH:MM:SS,mmm --> HH:MM:SS,mmm` pattern.) -/
theorem C4_filter_characterization (s : List Char) :
    stripSrtTimecodes s = stripAmendedSpec s := by
  by_cases hs : s.isEmpty
  · rw [List.isEmpty_iff.mp hs]
    decide
  · rw [stripSrtTimecodes, if_neg (by simp [hs]), stripAmendedSpec]
    congr 1
    apply List.filter_congr
    intro l _
    exact srtKeep_eq_not_removedAmended l

/-- Counterexample to claim C4 as stated: the line `a --> b` is neither purely
numeric, nor a `HH:MM:SS,mmm --> HH:MM:SS,mmm` timecode line, nor blank, so
the claim says it is preserved — but the filter removes it, because the code
drops every line containing `-->`. -/
theorem C4_counterexample :
    stripSrtTimecodes "a --> b".toList = [] ∧
    stripSpecLiteral "a --> b".toList = "a --> b".toList ∧
    stripSrtTimecodes "a --> b".toList ≠ stripSpecLiteral "a --> b".toList := by
  refine ⟨by decide, by decide, by decide⟩

/-! ## Claim C6: the translate client's timecode detection vs. the filter -/

theorem takeDigits_suffix (n : Nat) :
    ∀ s r : List Char, takeDigits n s = some r → r <:+ s := by
  induction n with
  | zero =>
    intro s r h
    simp [takeDigits] at h
    exact h ▸ List.suffix_refl s
  | succ n ih =>
    intro s r h
    cases s with
    | nil => simp [takeDigits] at h
    | cons c s0 =>
      rw [takeDigits] at h
      split at h
      · exact (ih s0 r h).trans (List.suffix_cons c s0)
      · exact absurd h (by simp)

theorem expectCh_suffix (ch : Char) (s r : List Char)
    (h : expectCh ch s = some r) : r <:+ s := by
  cases s with
  | nil => simp [expectCh] at h
  | cons c s0 =>
    rw [expectCh] at h
    split at h
    · cases h; exact List.suffix_cons _ _
    · exact absurd h (by simp)

theorem timePart_suffix (s r : List Char) (h : timePart s = some r) :
    r <:+ s := by
  rw [timePart] at h
  obtain ⟨s6, h6, hr⟩ := Option.bind_eq_some.mp h
  obtain ⟨s5, h5, h6b⟩ := Option.bind_eq_some.mp h6
  obtain ⟨s4, h4, h5b⟩ := Option.bind_eq_some.mp h5
  obtain ⟨s3, h3, h4b⟩ := Option.bind_eq_some.mp h4
  obtain ⟨s2, h2, h3b⟩ := Option.bind_eq_some.mp h3
  obtain ⟨s1, h1, h2b⟩ := Option.bind_eq_some.mp h2
  have t1 : s1 <:+ s := takeDigits_suffix 2 s s1 h1
  have t2 : s2 <:+ s1 := expectCh_suffix ':' s1 s2 h2b
  have t3 : s3 <:+ s2 := takeDigits_suffix 2 s2 s3 h3b
  have t4 : s4 <:+ s3 := expectCh_suffix ':' s3 s4 h4b
  have t5 : s5 <:+ s4 := takeDigits_suffix 2 s4 s5 h5b
  have t6 : s6 <:+ s5 := expectCh_suffix ',' s5 s6 h6b
  have t7 : r <:+ s6 := takeDigits_suffix 3 s6 r hr
  exact t7.trans (t6.trans (t5.trans (t4.trans (t3.trans (t2.trans t1)))))

theorem arrowHead_intro (w : List Char) :
    arrowHead ('-' :: '-' :: '>' :: w) = true := by
  simp [arrowHead]

theorem arrowHead_true_elim (t : List Char) (h : arrowHead t = true) :
    ∃ w, t = '-' :: '-' :: '>' :: w := by
  rcases t with _ | ⟨a, _ | ⟨b, _ | ⟨c, w⟩⟩⟩
  · exact absurd h (by decide)
  · simp [arrowHead] at h
  · simp [arrowHead] at h
  · simp [arrowHead] at h
    obtain ⟨ha, hb, hc⟩ := h
    exact ⟨w, by rw [ha, hb, hc]⟩

theorem containsArrow_of_arrowHead (l : List Char) (h : arrowHead l = true) :
    containsArrow l = true := by
  rw [containsArrow, List.any_eq_true]
  exact ⟨l, (List.mem_tails _ _).mpr (List.suffix_refl l), h⟩

theorem containsArrow_cons_of (c : Char) (l : List Char)
    (h : containsArrow l = true) : containsArrow (c :: l) = true := by
  rw [containsArrow_cons, h, Bool.or_true]

theorem containsArrow_of_suffix {u t : List Char} (hs : u <:+ t)
    (hu : containsArrow u = true) : containsArrow t = true := by
  rw [containsArrow, List.any_eq_true] at hu ⊢
  obtain ⟨v, hv, hav⟩ := hu
  exact ⟨v, (List.mem_tails _ _).mpr (((List.mem_tails _ _).mp hv).trans hs), hav⟩

theorem matchTC_containsArrow (t : List Char) (h : matchTC t = true) :
    containsArrow t = true := by
  rw [matchTC] at h
  split at h
  · exact absurd h (by simp)
  · rename_i s1 heq
    split at h
    · rename_i s3 heq2
      have hsuf : ('-' :: '-' :: '>' :: s3) <:+ t := by
        rw [← heq2]
        exact (List.dropWhile_suffix isJsWs).trans (timePart_suffix t s1 heq)
      exact containsArrow_of_suffix hsuf
        (containsArrow_of_arrowHead _ (arrowHead_intro s3))
    · exact absurd h (by simp)

theorem arrow_in_line (s : List Char) (h : containsArrow s = true) :
    ∃ l ∈ splitCRLF s, containsArrow l = true := by
  induction s using splitCRLF.induct with
  | case1 => exact absurd h (by decide)
  | case2 rest ih =>
    rw [containsArrow_cons] at h
    rcases Bool.or_eq_true_iff.mp h with h | h
    · obtain ⟨w, hw⟩ := arrowHead_true_elim _ h
      simp at hw
    · obtain ⟨l, hl, hal⟩ := ih h
      exact ⟨l, by rw [splitCRLF_cons_nl]; exact List.mem_cons_of_mem _ hl, hal⟩
  | case3 _ => exact absurd h (by decide)
  | case4 rest _ ih =>
    rw [containsArrow_cons] at h
    rcases Bool.or_eq_true_iff.mp h with h | h
    · obtain ⟨w, hw⟩ := arrowHead_true_elim _ h
      simp at hw
    · rw [containsArrow_cons] at h
      rcases Bool.or_eq_true_iff.mp h with h | h
      · obtain ⟨w, hw⟩ := arrowHead_true_elim _ h
        simp at hw
      · obtain ⟨l, hl, hal⟩ := ih h
        exact ⟨l, by rw [splitCRLF_crlf]; exact List.mem_cons_of_mem _ hl, hal⟩
  | case5 r2 rest2 h2 _ ih =>
    rw [containsArrow_cons] at h
    rcases Bool.or_eq_true_iff.mp h with h | h
    · obtain ⟨w, hw⟩ := arrowHead_true_elim _ h
      simp at hw
    · obtain ⟨l, hl, hal⟩ := ih h
      obtain ⟨hd, tl, hw⟩ := List.exists_cons_of_ne_nil (splitCRLF_ne_nil (r2 :: rest2))
      rw [splitCRLF_cr_cons r2 rest2 h2, hw, consHead_cons]
      rw [hw] at hl
      rcases List.mem_cons.mp hl with hh | hh
      · exact ⟨'\r' :: hd, List.mem_cons_self _ _,
          containsArrow_cons_of '\r' hd (hh ▸ hal)⟩
      · exact ⟨l, List.mem_cons_of_mem _ hh, hal⟩
  | case6 c rest h1 h2 ih =>
    rw [containsArrow_cons] at h
    rcases Bool.or_eq_true_iff.mp h with h | h
    · obtain ⟨w, hw⟩ := arrowHead_true_elim _ h
      injection hw with hc hrest
      subst hc
      subst hrest
      obtain ⟨hd, tl, hw⟩ := List.exists_cons_of_ne_nil (splitCRLF_ne_nil w)
      have e3 : splitCRLF ('>' :: w) = ('>' :: hd) :: tl := by
        rw [splitCRLF_cons_other '>' w (by decide) (by decide), hw, consHead_cons]
      have e2 : splitCRLF ('-' :: '>' :: w) = ('-' :: '>' :: hd) :: tl := by
        rw [splitCRLF_cons_other '-' _ (by decide) (by decide), e3, consHead_cons]
      have e1 : splitCRLF ('-' :: '-' :: '>' :: w)
          = ('-' :: '-' :: '>' :: hd) :: tl := by
        rw [splitCRLF_cons_other '-' _ (by decide) (by decide), e2, consHead_cons]
      exact ⟨'-' :: '-' :: '>' :: hd, by rw [e1]; exact List.mem_cons_self _ _,
        containsArrow_of_arrowHead _ (arrowHead_intro hd)⟩
    · obtain ⟨l, hl, hal⟩ := ih h
      obtain ⟨hd, tl, hw⟩ := List.exists_cons_of_ne_nil (splitCRLF_ne_nil rest)
      rw [splitCRLF_cons_other c rest h1 h2, hw, consHead_cons]
      rw [hw] at hl
      rcases List.mem_cons.mp hl with hh | hh
      · exact ⟨c :: hd, List.mem_cons_self _ _,
          containsArrow_cons_of c hd (hh ▸ hal)⟩
      · exact ⟨l, List.mem_cons_of_mem _ hh, hal⟩

/-- Claim C6 (amended): the translate operation chooses the
timecode-preserving prompt only if the text contains a line that the SRT
filter would remove as a timecode line; the converse direction of the claim
fails (see the counterexample), because the filter removes every line
containing `-->` while the prompt choice requires a full
`HH:MM:SS,mmm --> HH:MM:SS,mmm` match. -/
theorem C6_preserve_only_if (s : List Char)
    (h : translatePromptPreservesTimecodes s = true) :
    ∃ l ∈ splitCRLF s, containsArrow l = true := by
  rw [translatePromptPreservesTimecodes, hasSrtTimecodes, List.any_eq_true] at h
  obtain ⟨t, ht, hmt⟩ := h
  exact arrow_in_line s
    (containsArrow_of_suffix ((List.mem_tails _ _).mp ht) (matchTC_containsArrow t hmt))

/-- Witness for C6 at a concrete timecoded text. -/
theorem C6_preserve_only_if_witness :
    ∃ l ∈ splitCRLF "x\n00:00:01,234 --> 00:00:05,678\ny".toList,
      containsArrow l = true :=
  C6_preserve_only_if "x\n00:00:01,234 --> 00:00:05,678\ny".toList (by decide)

/-- Counterexample to claim C6 as stated: the text `a --> b` contains a line
the filter removes as a timecode line (it contains `-->`), yet the translate
operation does not choose the preserve-timecodes prompt, because the full
timecode pattern does not occur. -/
theorem C6_counterexample :
    ¬ (hasSrtTimecodes "a --> b".toList = true ↔
      ∃ l ∈ splitCRLF "a --> b".toList, containsArrow l = true) := by
  decide

/-! ## Claim C7: quote grouping order in the export -/

theorem any_map_fst (r : List (List Char × List ScriptQuote)) (sp : List Char) :
    (r.map Prod.fst).any (· == sp) = r.any (fun p => p.1 == sp) := by
  induction r with
  | nil => rfl
  | cons p r ih => simp [List.any_cons, ih]

theorem keys_recPush (r : List (List Char × List ScriptQuote)) (q : ScriptQuote) :
    (recPush r q).map Prod.fst
      = if (r.map Prod.fst).any (· == q.speaker) then r.map Prod.fst
        else r.map Prod.fst ++ [q.speaker] := by
  rw [recPush, ← any_map_fst]
  split
  · rw [List.map_map]
    apply List.map_congr_left
    intro p _
    by_cases hb : (p.1 == q.speaker) = true <;> simp [Function.comp, hb]
  · simp

theorem keys_foldl_recPush (qs : List ScriptQuote) :
    ∀ r : List (List Char × List ScriptQuote),
      (List.foldl recPush r qs).map Prod.fst
        = List.foldl
            (fun acc q => if acc.any (· == q.speaker) then acc else acc ++ [q.speaker])
            (r.map Prod.fst) qs := by
  induction qs with
  | nil => intro r; rfl
  | cons q qs ih =>
    intro r
    rw [List.foldl_cons, List.foldl_cons, ih (recPush r q), keys_recPush]

theorem quotesBySpeaker_keys (qs : List ScriptQuote) :
    (quotesBySpeaker qs).map Prod.fst = firstSpeakers qs := by
  rw [quotesBySpeaker, firstSpeakers, keys_foldl_recPush qs []]
  rfl

theorem mem_foldl_appear (qs : List ScriptQuote) :
    ∀ (acc : List (List Char)) (x : List Char),
      x ∈ List.foldl
          (fun acc q => if acc.any (· == q.speaker) then acc else acc ++ [q.speaker])
          acc qs →
      x ∈ acc ∨ ∃ q ∈ qs, x = q.speaker := by
  induction qs with
  | nil => intro acc x h; exact Or.inl h
  | cons q qs ih =>
    intro acc x h
    rw [List.foldl_cons] at h
    rcases ih _ x h with h | ⟨q0, hq0, hx⟩
    · by_cases hb : acc.any (· == q.speaker) = true
      · rw [if_pos hb] at h; exact Or.inl h
      · rw [if_neg hb] at h
        rcases List.mem_append.mp h with h | h
        · exact Or.inl h
        · rw [List.mem_singleton] at h
          exact Or.inr ⟨q, List.mem_cons_self _ _, h⟩
    · exact Or.inr ⟨q0, List.mem_cons_of_mem _ hq0, hx⟩

theorem recPush_groups (r : List (List Char × List ScriptQuote)) (q : ScriptQuote)
    (f : List Char → List ScriptQuote) (hr : ∀ p ∈ r, p.2 = f p.1)
    (hout : ∀ sp, sp ∉ r.map Prod.fst → f sp = []) :
    ∀ p ∈ recPush r q,
      p.2 = if p.1 = q.speaker then f p.1 ++ [q] else f p.1 := by
  intro p hp
  rw [recPush] at hp
  split at hp
  · rename_i hany
    obtain ⟨p0, hp0, hup⟩ := List.mem_map.mp hp
    by_cases hb : (p0.1 == q.speaker) = true
    · rw [if_pos hb] at hup
      have hsp : p0.1 = q.speaker := by simpa using hb
      rw [← hup]
      simp [hsp, hr p0 hp0]
    · rw [if_neg hb] at hup
      have hsp : p0.1 ≠ q.speaker := by simpa using hb
      rw [← hup]
      simp [hsp, hr p0 hp0]
  · rename_i hany
    rcases List.mem_append.mp hp with hmem | hmem
    · have hsp : p.1 ≠ q.speaker := by
        intro hc
        exact hany (List.any_eq_true.mpr ⟨p, hmem, by simp [hc]⟩)
      simp [hsp, hr p hmem]
    · rw [List.mem_singleton] at hmem
      subst hmem
      have hfq : f q.speaker = [] := by
        apply hout
        intro hin
        obtain ⟨p0, hp0, hfst⟩ := List.mem_map.mp hin
        exact hany (List.any_eq_true.mpr ⟨p0, hp0, by simp [hfst]⟩)
      simp [hfq]

theorem foldl_recPush_groups (qs : List ScriptQuote) :
    ∀ (r : List (List Char × List ScriptQuote))
      (f : List Char → List ScriptQuote),
      (∀ p ∈ r, p.2 = f p.1) →
      (∀ sp, sp ∉ r.map Prod.fst → f sp = []) →
      ∀ p ∈ List.foldl recPush r qs,
        p.2 = f p.1 ++ qs.filter (fun x => x.speaker == p.1) := by
  induction qs with
  | nil =>
    intro r f hr _ p hp
    simpa using hr p hp
  | cons q qs ih =>
    intro r f hr hout p hp
    rw [List.foldl_cons] at hp
    have hr2 : ∀ p ∈ recPush r q,
        p.2 = (fun sp => if sp = q.speaker then f sp ++ [q] else f sp) p.1 :=
      recPush_groups r q f hr hout
    have hout2 : ∀ sp, sp ∉ (recPush r q).map Prod.fst →
        (fun sp => if sp = q.speaker then f sp ++ [q] else f sp) sp = [] := by
      intro sp hsp
      rw [keys_recPush] at hsp
      have hspq : sp ≠ q.speaker := by
        intro hc
        subst hc
        split at hsp
        · rename_i hany
          rw [List.any_eq_true] at hany
          obtain ⟨x, hx, hxe⟩ := hany
          have hxeq : x = q.speaker := by simpa using hxe
          exact hsp (hxeq ▸ hx)
        · exact hsp (List.mem_append.mpr (Or.inr (List.mem_singleton.mpr rfl)))
      have hspr : sp ∉ r.map Prod.fst := by
        intro hc
        apply hsp
        split
        · exact hc
        · exact List.mem_append.mpr (Or.inl hc)
      simp [hspq, hout sp hspr]
    have := ih (recPush r q) _ hr2 hout2 p hp
    rw [this, List.filter_cons]
    by_cases hsp : p.1 = q.speaker
    · have hb : (q.speaker == p.1) = true := by simp [hsp]
      rw [if_pos hsp, if_pos hb, List.append_assoc]
      rfl
    · have hb : ¬((q.speaker == p.1) = true) := by
        simp only [beq_iff_eq]
        exact fun hc => hsp hc.symm
      rw [if_neg hsp, if_neg hb]

/-- Claim C7 (amended): provided no speaker label is a canonical array-index
string (labels like `Speaker A` never are), the Key Quotes section's speaker
groups appear in the first-appearance order of the speakers in the quote list,
and each group holds exactly that speaker's quotes in their original
extraction order.  (For array-index-like labels, JavaScript object-key
enumeration reorders the groups numerically — see the counterexample.) -/
theorem C7_groups (qs : List ScriptQuote)
    (h : ∀ q ∈ qs, isArrayIndexKey q.speaker = false) :
    (jsEntries (quotesBySpeaker qs)).map Prod.fst = firstSpeakers qs ∧
    ∀ sp g, (sp, g) ∈ jsEntries (quotesBySpeaker qs) →
      g = qs.filter (fun x => x.speaker == sp) := by
  have hnoidx : ∀ p ∈ quotesBySpeaker qs, isArrayIndexKey p.1 = false := by
    intro p hp
    have hx : p.1 ∈ (quotesBySpeaker qs).map Prod.fst :=
      List.mem_map.mpr ⟨p, hp, rfl⟩
    rw [quotesBySpeaker_keys, firstSpeakers] at hx
    rcases mem_foldl_appear qs [] p.1 hx with hc | ⟨q, hq, he⟩
    · simp at hc
    · exact he ▸ h q hq
  have hent : jsEntries (quotesBySpeaker qs) = quotesBySpeaker qs := by
    rw [jsEntries]
    rw [List.filter_eq_nil_iff.mpr (fun p hp => by simp [hnoidx p hp])]
    rw [List.filter_eq_self.mpr (fun p hp => by simp [hnoidx p hp])]
    rfl
  constructor
  · rw [hent, quotesBySpeaker_keys]
  · intro sp g hmem
    rw [hent] at hmem
    have := foldl_recPush_groups qs [] (fun _ => [])
      (by simp) (fun _ _ => rfl) (sp, g) hmem
    simpa using this

/-- Witness for C7 at a concrete quote list with two speakers. -/
theorem C7_groups_witness :
    (jsEntries (quotesBySpeaker
        [⟨"Speaker A".toList, "x".toList⟩, ⟨"Speaker B".toList, "y".toList⟩,
          ⟨"Speaker A".toList, "z".toList⟩])).map Prod.fst
      = firstSpeakers
          [⟨"Speaker A".toList, "x".toList⟩, ⟨"Speaker B".toList, "y".toList⟩,
            ⟨"Speaker A".toList, "z".toList⟩] ∧
    ∀ sp g, (sp, g) ∈ jsEntries (quotesBySpeaker
        [⟨"Speaker A".toList, "x".toList⟩, ⟨"Speaker B".toList, "y".toList⟩,
          ⟨"Speaker A".toList, "z".toList⟩]) →
      g = [⟨"Speaker A".toList, "x".toList⟩, ⟨"Speaker B".toList, "y".toList⟩,
          ⟨"Speaker A".toList, "z".toList⟩].filter (fun x => x.speaker == sp) :=
  C7_groups _ (by decide)

/-- Counterexample to claim C7 as stated: with speaker labels `2` and `1`
(canonical array-index strings), JavaScript object-key enumeration lists the
numeric keys in ascending order, so the group order is `1`, `2` although the
first-appearance order is `2`, `1`. -/
theorem C7_counterexample :
    (jsEntries (quotesBySpeaker
        [⟨"2".toList, "b".toList⟩, ⟨"1".toList, "a".toList⟩])).map Prod.fst
      ≠ firstSpeakers [⟨"2".toList, "b".toList⟩, ⟨"1".toList, "a".toList⟩] := by
  decide

end VerbaVox
